import Mathlib

/-!
Shallow embedding of the rank-aggregation core of `merge-lists.js`
(the repository's list merger): domain normalization (`normalizeWebsite`),
the keyed merge over the five source lists (tranco first, then ahrefs,
cloudflare, similarweb, semrush in declaration order), the composite
sort comparator, and the final URL synthesis pass.

Strings are modelled as `List Char`; the JS `Map` keyed by normalized
website is modelled as a `List Entry` in insertion order (one entry per
key along every reachable state).  JS `Array.prototype.sort` with a
consistent comparator is modelled by stable insertion sort on the
relation `cmpR a b ≤ 0`.  The comparator's floating-point average is
modelled with exact rationals; its sign behaviour coincides for the
integer ranks the program manipulates.
-/

/-- ASCII model of the whitespace class removed by JS `String.prototype.trim`. -/
def isJsWs (c : Char) : Bool :=
  c == ' ' || c == '\t' || c == '\n' || c == '\r' || c == '\x0b' || c == '\x0c'

/-- Remove leading JS whitespace. -/
def trimLeft (s : List Char) : List Char := s.dropWhile isJsWs

/-- Remove trailing JS whitespace. -/
def trimRight (s : List Char) : List Char := (s.reverse.dropWhile isJsWs).reverse

/-- Model of JS `String.prototype.trim`. -/
def jsTrim (s : List Char) : List Char := trimRight (trimLeft s)

/-- ASCII model of JS `String.prototype.toLowerCase`. -/
def lowerStr (s : List Char) : List Char := s.map Char.toLower

/-- The literal prefix `www.` tested by `normalizeWebsite`. -/
def wwwDot : List Char := "www.".data

/-- Model of `normalizeWebsite` from merge-lists.js: falsy input maps to the empty
string; otherwise lower-case, trim, and strip one leading `www.`. -/
def normalizeWebsite (domain : List Char) : List Char :=
  if domain = [] then []
  else
    let n := jsTrim (lowerStr domain)
    if n.take 4 = wwwDot then n.drop 4 else n

/-- The five configured source lists. -/
inductive Source where
  | tranco | cloudflare | similarweb | ahrefs | semrush
deriving DecidableEq, Repr

/-- The `rank` object of a merged record: at most one rank per source. -/
structure RankMap where
  tranco : Option Nat
  cloudflare : Option Nat
  similarweb : Option Nat
  ahrefs : Option Nat
  semrush : Option Nat
deriving DecidableEq, Repr

/-- The empty `rank` object. -/
def RankMap.empty : RankMap := ⟨none, none, none, none, none⟩

/-- Read `rank[sourceName]`. -/
def RankMap.get (m : RankMap) : Source → Option Nat
  | .tranco => m.tranco
  | .cloudflare => m.cloudflare
  | .similarweb => m.similarweb
  | .ahrefs => m.ahrefs
  | .semrush => m.semrush

/-- Write `rank[sourceName] = r`. -/
def RankMap.set (m : RankMap) (s : Source) (r : Nat) : RankMap :=
  match s with
  | .tranco => { m with tranco := some r }
  | .cloudflare => { m with cloudflare := some r }
  | .similarweb => { m with similarweb := some r }
  | .ahrefs => { m with ahrefs := some r }
  | .semrush => { m with semrush := some r }

/-- One value of the merged map: `{website, url, rank}`. -/
structure Entry where
  website : List Char
  url : Option (List Char)
  rank : RankMap
deriving DecidableEq, Repr

/-- A raw tranco item after field extraction: domain, optional url, rank.
An absent or empty domain/url field is the empty list / `none`. -/
structure TrancoItem where
  domain : List Char
  url : Option (List Char)
  rank : Nat
deriving DecidableEq, Repr

/-- A raw non-primary item after field extraction. -/
structure SecItem where
  domain : List Char
  rank : Nat
deriving DecidableEq, Repr

/-- Model of `websitesMap.get(k)` (under the one-entry-per-key map invariant). -/
def findEntry (m : List Entry) (k : List Char) : Option Entry :=
  m.find? (fun e => e.website == k)

/-- Model of `item[urlField] || null`: empty string is falsy. -/
def jsUrlOrNull : Option (List Char) → Option (List Char)
  | none => none
  | some u => if u = [] then none else some u

/-- In-place mutation of the entry stored at key `k`: overwrite `url`
and the tranco rank together (tranco conflict winner). -/
def updTrancoAt (m : List Entry) (k : List Char) (u : Option (List Char))
    (r : Nat) : List Entry :=
  m.map (fun e =>
    if e.website == k then { e with url := u, rank := e.rank.set .tranco r }
    else e)

/-- In-place mutation of the entry stored at key `k`: set `rank[s] = r`. -/
def setRankAt (m : List Entry) (k : List Char) (s : Source) (r : Nat) :
    List Entry :=
  m.map (fun e =>
    if e.website == k then { e with rank := e.rank.set s r } else e)

/-- One iteration of the tranco (primary) loop of `mergeLists`. -/
def trancoStep (m : List Entry) (it : TrancoItem) : List Entry :=
  if it.domain = [] then m
  else
    let k := normalizeWebsite it.domain
    let u := jsUrlOrNull it.url
    match findEntry m k with
    | some existing =>
      match existing.rank.get .tranco with
      | some r0 => if it.rank < r0 then updTrancoAt m k u it.rank else m
      | none => updTrancoAt m k u it.rank
    | none => m ++ [⟨k, u, RankMap.empty.set .tranco it.rank⟩]

/-- One iteration of the non-primary loop of `mergeLists` for source `s`. -/
def secStep (s : Source) (m : List Entry) (it : SecItem) : List Entry :=
  if it.domain = [] then m
  else
    let k := normalizeWebsite it.domain
    match findEntry m k with
    | some _ => setRankAt m k s it.rank
    | none => m ++ [⟨k, none, RankMap.empty.set s it.rank⟩]

/-- Fold the whole tranco list into the map. -/
def mergeTranco (m : List Entry) (items : List TrancoItem) : List Entry :=
  items.foldl trancoStep m

/-- Fold a whole non-primary list into the map. -/
def mergeSecondary (s : Source) (m : List Entry) (items : List SecItem) :
    List Entry :=
  items.foldl (secStep s) m

/-- The map after folding all five sources in program order. -/
def mergeMaps (tr : List TrancoItem) (ah cf sw sr : List SecItem) :
    List Entry :=
  mergeSecondary .semrush
    (mergeSecondary .similarweb
      (mergeSecondary .cloudflare
        (mergeSecondary .ahrefs (mergeTranco [] tr) ah) cf) sw) sr

/-- Model of `getTaiwanRanks`: present local-market ranks, in the order the code
pushes them (cloudflare, similarweb, ahrefs, semrush). -/
def twRanks (e : Entry) : List Nat :=
  (match e.rank.cloudflare with | some r => [r] | none => []) ++
  (match e.rank.similarweb with | some r => [r] | none => []) ++
  (match e.rank.ahrefs with | some r => [r] | none => []) ++
  (match e.rank.semrush with | some r => [r] | none => [])

/-- Model of `Math.min(...ranks)` over a list produced under a nonemptiness guard. -/
def minN (l : List Nat) : Nat :=
  match l with
  | [] => 0
  | h :: t => t.foldl Nat.min h

/-- The arithmetic mean used by the comparator, in exact arithmetic. -/
def avgQ (l : List Nat) : ℚ := (l.sum : ℚ) / (l.length : ℚ)

/-- Sign model of `String.prototype.localeCompare` on bare ASCII domain
strings: lexicographic comparison by character code. -/
def lexCmp : List Char → List Char → Int
  | [], [] => 0
  | [], _ :: _ => -1
  | _ :: _, [] => 1
  | a :: as, b :: bs =>
    if a < b then -1 else if b < a then 1 else lexCmp as bs

/-- The sort comparator of `mergeLists`, transcribed literally (the mean
comparison uses exact rational division; the JS `Infinity` sentinel for a
missing tranco rank is modelled by matching on the option, and the
`±Infinity` comparator results it produces by `±1`, which have the same
sign). -/
def cmpQ (a b : Entry) : ℚ :=
  let ta := twRanks a
  let tb := twRanks b
  if 0 < ta.length ∧ tb.length = 0 then -1
  else if ta.length = 0 ∧ 0 < tb.length then 1
  else if 0 < ta.length ∧ 0 < tb.length then
    if ta.length ≠ tb.length then (tb.length : ℚ) - (ta.length : ℚ)
    else if avgQ ta ≠ avgQ tb then avgQ ta - avgQ tb
    else if minN ta ≠ minN tb then (minN ta : ℚ) - (minN tb : ℚ)
    else (lexCmp a.website b.website : ℚ)
  else
    match a.rank.tranco, b.rank.tranco with
    | some ra, some rb =>
      if ra ≠ rb then (ra : ℚ) - (rb : ℚ)
      else (lexCmp a.website b.website : ℚ)
    | some _, none => -1
    | none, some _ => 1
    | none, none => (lexCmp a.website b.website : ℚ)

/-- Executable integer comparator with the same sign as `cmpQ` everywhere
(proved in `cmpR_le_iff_cmpQ_le` and `cmpR_eq_zero_iff_cmpQ_eq_zero`
below): the mean comparison is reached only when both rank lists have the
same positive length, where comparing means is comparing sums. -/
def cmpR (a b : Entry) : Int :=
  let ta := twRanks a
  let tb := twRanks b
  if 0 < ta.length ∧ tb.length = 0 then -1
  else if ta.length = 0 ∧ 0 < tb.length then 1
  else if 0 < ta.length ∧ 0 < tb.length then
    if ta.length ≠ tb.length then (tb.length : Int) - (ta.length : Int)
    else if ta.sum ≠ tb.sum then (ta.sum : Int) - (tb.sum : Int)
    else if minN ta ≠ minN tb then (minN ta : Int) - (minN tb : Int)
    else lexCmp a.website b.website
  else
    match a.rank.tranco, b.rank.tranco with
    | some ra, some rb =>
      if ra ≠ rb then (ra : Int) - (rb : Int)
      else lexCmp a.website b.website
    | some _, none => -1
    | none, some _ => 1
    | none, none => lexCmp a.website b.website

/-- The sort order induced by the comparator. -/
def leP (a b : Entry) : Prop := cmpR a b ≤ 0

instance instDecLeP : DecidableRel leP :=
  fun a b => inferInstanceAs (Decidable (cmpR a b ≤ 0))

/-- Model of `result.sort(comparator)`: sorting by a consistent comparator
(stable, as ECMAScript requires). -/
def sortEntries (l : List Entry) : List Entry := List.insertionSort leP l

/-- The post-sort URL pass: `if (!item.url) item.url = https://website`. -/
def fillUrl (e : Entry) : Entry :=
  match e.url with
  | none => { e with url := some ("https://".data ++ e.website) }
  | some u =>
    if u = [] then { e with url := some ("https://".data ++ e.website) }
    else e

/-- Composite ranker: sort the merged entries and synthesize missing URLs. -/
def rankEntries (l : List Entry) : List Entry := (sortEntries l).map fillUrl

/-- The whole `mergeLists` pipeline on already-extracted records. -/
def mergeLists (tr : List TrancoItem) (ah cf sw sr : List SecItem) :
    List Entry :=
  rankEntries (mergeMaps tr ah cf sw sr)

/-! ### Character and string lemmas -/

theorem char_ofNat_toNat {n : Nat} (h : n < 55296) :
    (Char.ofNat n).toNat = n := by
  simp [Char.ofNat, Nat.isValidChar, dif_pos (Or.inl h), Char.ofNatAux,
    Char.toNat, UInt32.toNat]

theorem toLower_idem (c : Char) : c.toLower.toLower = c.toLower := by
  unfold Char.toLower
  by_cases h : c.toNat ≥ 65 ∧ c.toNat ≤ 90
  · rw [if_pos h]
    have hlt : c.toNat + 32 < 55296 := by omega
    rw [char_ofNat_toNat hlt, if_neg (by omega)]
  · rw [if_neg h, if_neg h]

theorem head?_dropWhile {p : Char → Bool} {l : List Char} {c : Char}
    (h : (l.dropWhile p).head? = some c) : p c = false := by
  induction l with
  | nil => simp at h
  | cons a t ih =>
    rw [List.dropWhile_cons] at h
    by_cases hp : p a
    · rw [if_pos hp] at h
      exact ih h
    · rw [if_neg hp] at h
      simp at h
      subst h
      simpa using hp

theorem dropWhile_eq_self_of_head {p : Char → Bool} {l : List Char}
    (h : ∀ c, l.head? = some c → p c = false) : l.dropWhile p = l := by
  cases l with
  | nil => rfl
  | cons a t =>
    rw [List.dropWhile_cons, if_neg]
    simp [h a rfl]

theorem map_fixed {f : Char → Char} {l : List Char}
    (h : ∀ c ∈ l, f c = c) : l.map f = l := by
  induction l with
  | nil => rfl
  | cons a t ih =>
    simp only [List.map_cons, h a (List.mem_cons_self a t)]
    rw [ih (fun c hc => h c (List.mem_cons_of_mem a hc))]

theorem mem_lowerStr_of_mem_normalize {c : Char} {d : List Char}
    (h : c ∈ normalizeWebsite d) : c ∈ lowerStr d := by
  unfold normalizeWebsite at h
  by_cases hd : d = []
  · rw [if_pos hd] at h
    simp at h
  · rw [if_neg hd] at h
    simp only [jsTrim, trimLeft, trimRight] at h
    have sub1 : ∀ x, x ∈ ((lowerStr d).dropWhile isJsWs).reverse.dropWhile isJsWs →
        x ∈ lowerStr d := by
      intro x hx
      have := (@List.dropWhile_sublist Char
        (((lowerStr d).dropWhile isJsWs).reverse) isJsWs).subset hx
      rw [List.mem_reverse] at this
      exact (@List.dropWhile_sublist Char (lowerStr d) isJsWs).subset this
    by_cases hw : ((((lowerStr d).dropWhile isJsWs).reverse.dropWhile
        isJsWs).reverse).take 4 = wwwDot
    · rw [if_pos hw] at h
      have := List.drop_subset 4 _ h
      rw [List.mem_reverse] at this
      exact sub1 _ this
    · rw [if_neg hw] at h
      rw [List.mem_reverse] at h
      exact sub1 _ h

theorem toLower_fixed_of_mem_normalize {c : Char} {d : List Char}
    (h : c ∈ normalizeWebsite d) : c.toLower = c := by
  obtain ⟨c0, _, hc⟩ := List.mem_map.mp (mem_lowerStr_of_mem_normalize h)
  rw [← hc]
  exact toLower_idem c0

theorem getLast?_jsTrim {l : List Char} {c : Char}
    (h : (jsTrim l).getLast? = some c) : isJsWs c = false := by
  unfold jsTrim trimRight at h
  rw [List.getLast?_reverse] at h
  exact head?_dropWhile h

theorem getLast?_drop_of_ne_nil {l : List Char} {n : Nat}
    (h : l.drop n ≠ []) : (l.drop n).getLast? = l.getLast? := by
  obtain ⟨t, ht⟩ := List.drop_suffix n l
  cases hg : (l.drop n).getLast? with
  | none => exact absurd (List.getLast?_eq_none_iff.mp hg) h
  | some c =>
    rw [← ht, List.getLast?_append, hg]
    rfl

theorem trimRight_eq_self {l : List Char}
    (h : ∀ c, l.getLast? = some c → isJsWs c = false) : trimRight l = l := by
  unfold trimRight
  rw [dropWhile_eq_self_of_head, List.reverse_reverse]
  intro c hc
  rw [List.head?_reverse] at hc
  exact h c hc

/-- C1 (counterexample): normalization is not idempotent on the code:
`www.www.example.com` normalizes to `www.example.com`, which normalizes
again to `example.com`. -/
theorem C1_counterexample :
    normalizeWebsite (normalizeWebsite ("www.www.example.com".data)) ≠
      normalizeWebsite ("www.www.example.com".data) := by decide

/-- C1 (amended): normalization is idempotent on every domain whose
normalized form neither starts with the literal `www.` (which would be
stripped a second time) nor starts with whitespace (which trimming after
a `www.`-strip would remove a second time). -/
theorem C1_amended (d : List Char)
    (h1 : (normalizeWebsite d).take 4 ≠ wwwDot)
    (h2 : (normalizeWebsite d).head?.all (fun c => !isJsWs c) = true) :
    normalizeWebsite (normalizeWebsite d) = normalizeWebsite d := by
  by_cases hnil : normalizeWebsite d = []
  · rw [hnil]
    rfl
  · have h2' : ∀ c, (normalizeWebsite d).head? = some c → isJsWs c = false := by
      intro c hc
      rw [hc] at h2
      simpa using h2
    have hlow : lowerStr (normalizeWebsite d) = normalizeWebsite d :=
      map_fixed (fun c hc => toLower_fixed_of_mem_normalize hc)
    have hdnil : d ≠ [] := by
      intro hd
      apply hnil
      rw [hd]
      rfl
    have hlast : ∀ c, (normalizeWebsite d).getLast? = some c →
        isJsWs c = false := by
      have hsd : normalizeWebsite d =
          (if (jsTrim (lowerStr d)).take 4 = wwwDot
           then (jsTrim (lowerStr d)).drop 4 else jsTrim (lowerStr d)) := by
        unfold normalizeWebsite
        rw [if_neg hdnil]
      by_cases hw : (jsTrim (lowerStr d)).take 4 = wwwDot
      · rw [hsd, if_pos hw]
        intro c hc
        rw [getLast?_drop_of_ne_nil] at hc
        · exact getLast?_jsTrim hc
        · rw [hsd, if_pos hw] at hnil
          exact hnil
      · rw [hsd, if_neg hw]
        intro c hc
        exact getLast?_jsTrim hc
    have htl : trimLeft (normalizeWebsite d) = normalizeWebsite d :=
      dropWhile_eq_self_of_head h2'
    have htr : trimRight (normalizeWebsite d) = normalizeWebsite d :=
      trimRight_eq_self hlast
    conv_lhs => rw [normalizeWebsite]
    rw [if_neg hnil, hlow]
    show (if (jsTrim (normalizeWebsite d)).take 4 = wwwDot
          then (jsTrim (normalizeWebsite d)).drop 4
          else jsTrim (normalizeWebsite d)) = normalizeWebsite d
    rw [jsTrim, htl, htr, if_neg h1]

/-- C1 (witness): the amended idempotence theorem applied at the concrete
domain `sub.example.tw`. -/
theorem C1_witness :
    (normalizeWebsite ("sub.example.tw".data)).take 4 ≠ wwwDot ∧
      normalizeWebsite (normalizeWebsite ("sub.example.tw".data)) =
        normalizeWebsite ("sub.example.tw".data) :=
  ⟨by decide, C1_amended ("sub.example.tw".data) (by decide) (by decide)⟩

/-- C2: `normalizeWebsite` lower-cases, trims surrounding whitespace, and
strips exactly one leading `www.` label, as the spec's examples state. -/
theorem C2_normalize_examples :
    normalizeWebsite ("WWW.Example.COM".data) = ("example.com".data) ∧
      normalizeWebsite ("www.www.example.com".data) =
        ("www.example.com".data) ∧
      normalizeWebsite ("  WWW.Example.COM  ".data) = ("example.com".data) := by
  refine ⟨by decide, by decide, by decide⟩

/-! ### Comparator order lemmas -/

theorem lexCmp_zero_iff : ∀ {u v : List Char}, lexCmp u v = 0 ↔ u = v := by
  intro u
  induction u with
  | nil =>
    intro v
    cases v with
    | nil => simp [lexCmp]
    | cons b bs => simp [lexCmp]
  | cons a as ih =>
    intro v
    cases v with
    | nil => simp [lexCmp]
    | cons b bs =>
      by_cases hab : a < b
      · simp [lexCmp, hab, ne_of_lt hab]
      · by_cases hba : b < a
        · simp [lexCmp, hab, hba, ne_of_gt hba]
        · have hEq : a = b := le_antisymm (not_lt.mp hba) (not_lt.mp hab)
          simp [lexCmp, hab, hba, ih, hEq]

theorem lexCmp_neg : ∀ (u v : List Char), lexCmp u v = -(lexCmp v u) := by
  intro u
  induction u with
  | nil =>
    intro v
    cases v <;> simp [lexCmp]
  | cons a as ih =>
    intro v
    cases v with
    | nil => simp [lexCmp]
    | cons b bs =>
      by_cases hab : a < b
      · have : ¬ b < a := lt_asymm hab
        simp [lexCmp, hab, this]
      · by_cases hba : b < a
        · simp [lexCmp, hab, hba]
        · simp [lexCmp, hab, hba, ih bs]

theorem lexCmp_trans : ∀ {u v w : List Char},
    lexCmp u v ≤ 0 → lexCmp v w ≤ 0 → lexCmp u w ≤ 0 := by
  intro u
  induction u with
  | nil =>
    intro v w _ _
    cases w <;> simp [lexCmp]
  | cons a as ih =>
    intro v w h1 h2
    cases v with
    | nil => simp [lexCmp] at h1
    | cons b bs =>
      cases w with
      | nil => simp [lexCmp] at h2
      | cons c cs =>
        by_cases hab : a < b
        · -- a < b, and b ≤ c in the lex sense
          by_cases hbc : b < c
          · simp [lexCmp, lt_trans hab hbc]
          · by_cases hcb : c < b
            · rw [lexCmp] at h2
              rw [if_neg hbc, if_pos hcb] at h2
              omega
            · have : b = c := le_antisymm (not_lt.mp hcb) (not_lt.mp hbc)
              subst this
              simp [lexCmp, hab]
        · by_cases hba : b < a
          · rw [lexCmp, if_neg hab, if_pos hba] at h1
            omega
          · have hEq : a = b := le_antisymm (not_lt.mp hba) (not_lt.mp hab)
            subst hEq
            rw [lexCmp, if_neg hab, if_neg hba] at h1
            by_cases hac : a < c
            · simp [lexCmp, hac]
            · by_cases hca : c < a
              · rw [lexCmp] at h2
                rw [if_neg hac, if_pos hca] at h2
                omega
              · have : a = c := le_antisymm (not_lt.mp hca) (not_lt.mp hac)
                subst this
                rw [lexCmp, if_neg hac, if_neg hca] at h2 ⊢
                exact ih h1 h2

theorem cmpR_eq_local {a b : Entry} (hla : 0 < (twRanks a).length)
    (hlb : 0 < (twRanks b).length) :
    cmpR a b =
      (if (twRanks a).length ≠ (twRanks b).length then
        ((twRanks b).length : Int) - ((twRanks a).length : Int)
      else if (twRanks a).sum ≠ (twRanks b).sum then
        ((twRanks a).sum : Int) - ((twRanks b).sum : Int)
      else if minN (twRanks a) ≠ minN (twRanks b) then
        (minN (twRanks a) : Int) - (minN (twRanks b) : Int)
      else lexCmp a.website b.website) := by
  simp only [cmpR]
  rw [if_neg (by omega), if_neg (by omega), if_pos ⟨hla, hlb⟩]

theorem cmpR_eq_mixed_ab {a b : Entry} (hla : 0 < (twRanks a).length)
    (hlb : (twRanks b).length = 0) : cmpR a b = -1 := by
  simp only [cmpR]
  rw [if_pos ⟨hla, hlb⟩]

theorem cmpR_eq_mixed_ba {a b : Entry} (hla : (twRanks a).length = 0)
    (hlb : 0 < (twRanks b).length) : cmpR a b = 1 := by
  simp only [cmpR]
  rw [if_neg (by omega), if_pos ⟨hla, hlb⟩]

theorem cmpR_eq_nonlocal {a b : Entry} (hla : (twRanks a).length = 0)
    (hlb : (twRanks b).length = 0) :
    cmpR a b =
      (match a.rank.tranco, b.rank.tranco with
      | some ra, some rb =>
        if ra ≠ rb then (ra : Int) - (rb : Int)
        else lexCmp a.website b.website
      | some _, none => -1
      | none, some _ => 1
      | none, none => lexCmp a.website b.website) := by
  simp only [cmpR]
  rw [if_neg (by omega), if_neg (by omega), if_neg (by omega)]

theorem cmpR_neg (a b : Entry) : cmpR a b = -(cmpR b a) := by
  by_cases hla : 0 < (twRanks a).length <;> by_cases hlb : 0 < (twRanks b).length
  · rw [cmpR_eq_local hla hlb, cmpR_eq_local hlb hla]
    by_cases hl : (twRanks a).length = (twRanks b).length
    · have hh : ¬((twRanks b).length ≠ (twRanks b).length) := by omega
      rw [hl, if_neg hh, if_neg hh]
      by_cases hs : (twRanks a).sum = (twRanks b).sum
      · have hh2 : ¬((twRanks b).sum ≠ (twRanks b).sum) := by omega
        rw [hs, if_neg hh2, if_neg hh2]
        by_cases hm : minN (twRanks a) = minN (twRanks b)
        · have hh3 : ¬(minN (twRanks b) ≠ minN (twRanks b)) := by omega
          rw [hm, if_neg hh3, if_neg hh3]
          exact lexCmp_neg _ _
        · rw [if_pos hm, if_pos (fun h => hm h.symm)]
          omega
      · rw [if_pos hs, if_pos (fun h => hs h.symm)]
        omega
    · rw [if_pos hl, if_pos (fun h => hl h.symm)]
      omega
  · rw [cmpR_eq_mixed_ab hla (by omega), cmpR_eq_mixed_ba (by omega) hla]
  · rw [cmpR_eq_mixed_ba (by omega) hlb, cmpR_eq_mixed_ab hlb (by omega)]
    decide
  · have hla0 : (twRanks a).length = 0 := by omega
    have hlb0 : (twRanks b).length = 0 := by omega
    rw [cmpR_eq_nonlocal hla0 hlb0, cmpR_eq_nonlocal hlb0 hla0]
    rcases ha : a.rank.tranco with _ | ra <;> rcases hb : b.rank.tranco with _ | rb
    · exact lexCmp_neg _ _
    · show (1 : Int) = -(-1)
      decide
    · show (-1 : Int) = -(1)
      decide
    · show (if ra ≠ rb then (ra : Int) - (rb : Int)
          else lexCmp a.website b.website) =
        -(if rb ≠ ra then (rb : Int) - (ra : Int)
          else lexCmp b.website a.website)
      by_cases h : ra = rb
      · have hh : ¬(rb ≠ rb) := by omega
        rw [h, if_neg hh, if_neg hh]
        exact lexCmp_neg _ _
      · rw [if_pos h, if_pos (fun hx => h hx.symm)]
        omega

theorem cmpR_zero_website {a b : Entry} (h : cmpR a b = 0) :
    a.website = b.website := by
  by_cases hla : 0 < (twRanks a).length <;> by_cases hlb : 0 < (twRanks b).length
  · rw [cmpR_eq_local hla hlb] at h
    by_cases hl : (twRanks a).length = (twRanks b).length
    · rw [if_neg (by omega)] at h
      by_cases hs : (twRanks a).sum = (twRanks b).sum
      · rw [if_neg (by omega)] at h
        by_cases hm : minN (twRanks a) = minN (twRanks b)
        · rw [if_neg (by omega)] at h
          exact lexCmp_zero_iff.mp h
        · rw [if_pos hm] at h
          omega
      · rw [if_pos hs] at h
        omega
    · rw [if_pos hl] at h
      omega
  · rw [cmpR_eq_mixed_ab hla (by omega)] at h
    exact absurd h (by decide)
  · rw [cmpR_eq_mixed_ba (by omega) hlb] at h
    exact absurd h (by decide)
  · have h0a : (twRanks a).length = 0 := by omega
    have h0b : (twRanks b).length = 0 := by omega
    rcases ha : a.rank.tranco with _ | ra <;> rcases hb : b.rank.tranco with _ | rb <;>
      rw [cmpR_eq_nonlocal h0a h0b, ha, hb] at h
    · exact lexCmp_zero_iff.mp h
    · change (1 : Int) = 0 at h
      exact absurd h (by decide)
    · change (-1 : Int) = 0 at h
      exact absurd h (by decide)
    · change (if ra ≠ rb then (ra : Int) - (rb : Int)
        else lexCmp a.website b.website) = 0 at h
      by_cases hr : ra = rb
      · rw [if_neg (by omega)] at h
        exact lexCmp_zero_iff.mp h
      · rw [if_pos hr] at h
        omega

theorem cmpR_le_local_iff {a b : Entry} (hla : 0 < (twRanks a).length)
    (hlb : 0 < (twRanks b).length) :
    cmpR a b ≤ 0 ↔
      ((twRanks b).length < (twRanks a).length ∨
        ((twRanks a).length = (twRanks b).length ∧
          ((twRanks a).sum < (twRanks b).sum ∨
            ((twRanks a).sum = (twRanks b).sum ∧
              (minN (twRanks a) < minN (twRanks b) ∨
                (minN (twRanks a) = minN (twRanks b) ∧
                  lexCmp a.website b.website ≤ 0)))))) := by
  rw [cmpR_eq_local hla hlb]
  by_cases hl : (twRanks a).length = (twRanks b).length
  · rw [if_neg (by omega)]
    by_cases hs : (twRanks a).sum = (twRanks b).sum
    · rw [if_neg (by omega)]
      by_cases hm : minN (twRanks a) = minN (twRanks b)
      · rw [if_neg (by omega)]
        constructor
        · intro hx
          exact Or.inr ⟨hl, Or.inr ⟨hs, Or.inr ⟨hm, hx⟩⟩⟩
        · rintro (hx | ⟨_, hx | ⟨_, hx | ⟨_, hx⟩⟩⟩)
          · omega
          · omega
          · omega
          · exact hx
      · rw [if_pos hm]
        constructor
        · intro hx
          exact Or.inr ⟨hl, Or.inr ⟨hs, Or.inl (by omega)⟩⟩
        · rintro (hx | ⟨_, hx | ⟨_, hx | ⟨hx, _⟩⟩⟩) <;> omega
    · rw [if_pos hs]
      constructor
      · intro hx
        exact Or.inr ⟨hl, Or.inl (by omega)⟩
      · rintro (hx | ⟨_, hx | ⟨hx, _⟩⟩) <;> omega
  · rw [if_pos hl]
    constructor
    · intro hx
      exact Or.inl (by omega)
    · rintro (hx | ⟨hx, _⟩) <;> omega

theorem cmpR_trans {a b c : Entry} (h1 : cmpR a b ≤ 0) (h2 : cmpR b c ≤ 0) :
    cmpR a c ≤ 0 := by
  by_cases hla : 0 < (twRanks a).length <;> by_cases hlc : 0 < (twRanks c).length
  · by_cases hlb : 0 < (twRanks b).length
    · rw [cmpR_le_local_iff hla hlb] at h1
      rw [cmpR_le_local_iff hlb hlc] at h2
      rw [cmpR_le_local_iff hla hlc]
      rcases h1 with h1 | ⟨e1, h1⟩ <;> rcases h2 with h2 | ⟨e2, h2⟩
      · exact Or.inl (by omega)
      · exact Or.inl (by omega)
      · exact Or.inl (by omega)
      · refine Or.inr ⟨by omega, ?_⟩
        rcases h1 with h1 | ⟨f1, h1⟩ <;> rcases h2 with h2 | ⟨f2, h2⟩
        · exact Or.inl (by omega)
        · exact Or.inl (by omega)
        · exact Or.inl (by omega)
        · refine Or.inr ⟨by omega, ?_⟩
          rcases h1 with h1 | ⟨g1, h1⟩ <;> rcases h2 with h2 | ⟨g2, h2⟩
          · exact Or.inl (by omega)
          · exact Or.inl (by omega)
          · exact Or.inl (by omega)
          · exact Or.inr ⟨by omega, lexCmp_trans h1 h2⟩
    · rw [cmpR_eq_mixed_ba (by omega) hlc] at h2
      omega
  · rw [cmpR_eq_mixed_ab hla (by omega)]
    omega
  · by_cases hlb : 0 < (twRanks b).length
    · rw [cmpR_eq_mixed_ba (by omega) hlb] at h1
      omega
    · rw [cmpR_eq_mixed_ba (by omega) hlc] at h2
      omega
  · by_cases hlb : 0 < (twRanks b).length
    · rw [cmpR_eq_mixed_ba (by omega) hlb] at h1
      omega
    · have h0a : (twRanks a).length = 0 := by omega
      have h0b : (twRanks b).length = 0 := by omega
      have h0c : (twRanks c).length = 0 := by omega
      rcases ha : a.rank.tranco with _ | ra <;>
        rcases hbt : b.rank.tranco with _ | rb <;>
        rcases hc : c.rank.tranco with _ | rc
      · rw [cmpR_eq_nonlocal h0a h0b, ha, hbt] at h1
        rw [cmpR_eq_nonlocal h0b h0c, hbt, hc] at h2
        rw [cmpR_eq_nonlocal h0a h0c, ha, hc]
        exact lexCmp_trans h1 h2
      · rw [cmpR_eq_nonlocal h0b h0c, hbt, hc] at h2
        change (1 : Int) ≤ 0 at h2
        omega
      · rw [cmpR_eq_nonlocal h0a h0b, ha, hbt] at h1
        change (1 : Int) ≤ 0 at h1
        omega
      · rw [cmpR_eq_nonlocal h0a h0b, ha, hbt] at h1
        change (1 : Int) ≤ 0 at h1
        omega
      · rw [cmpR_eq_nonlocal h0a h0c, ha, hc]
        show (-1 : Int) ≤ 0
        decide
      · rw [cmpR_eq_nonlocal h0b h0c, hbt, hc] at h2
        change (1 : Int) ≤ 0 at h2
        omega
      · rw [cmpR_eq_nonlocal h0a h0c, ha, hc]
        show (-1 : Int) ≤ 0
        decide
      · rw [cmpR_eq_nonlocal h0a h0b, ha, hbt] at h1
        rw [cmpR_eq_nonlocal h0b h0c, hbt, hc] at h2
        rw [cmpR_eq_nonlocal h0a h0c, ha, hc]
        change (if ra ≠ rb then (ra : Int) - (rb : Int)
          else lexCmp a.website b.website) ≤ 0 at h1
        change (if rb ≠ rc then (rb : Int) - (rc : Int)
          else lexCmp b.website c.website) ≤ 0 at h2
        show (if ra ≠ rc then (ra : Int) - (rc : Int)
          else lexCmp a.website c.website) ≤ 0
        by_cases e1 : ra = rb
        · rw [if_neg (by omega)] at h1
          by_cases e2 : rb = rc
          · rw [if_neg (by omega)] at h2
            rw [if_neg (by omega)]
            exact lexCmp_trans h1 h2
          · rw [if_pos e2] at h2
            have hne : ra ≠ rc := by omega
            rw [if_pos hne]
            omega
        · rw [if_pos e1] at h1
          by_cases e2 : rb = rc
          · rw [if_neg (by omega)] at h2
            have hne : ra ≠ rc := by omega
            rw [if_pos hne]
            omega
          · rw [if_pos e2] at h2
            have hne : ra ≠ rc := by omega
            rw [if_pos hne]
            omega

theorem leP_total (a b : Entry) : leP a b ∨ leP b a := by
  unfold leP
  have := cmpR_neg a b
  omega

theorem leP_trans {a b c : Entry} (h1 : leP a b) (h2 : leP b c) : leP a c :=
  cmpR_trans h1 h2

theorem leP_antisymm_website {a b : Entry} (h1 : leP a b) (h2 : leP b a) :
    a.website = b.website := by
  have hneg := cmpR_neg a b
  have h0 : cmpR a b = 0 := by
    unfold leP at h1 h2
    omega
  exact cmpR_zero_website h0

/-! ### The literal rational comparator and the integer model agree in sign -/

theorem cmpQ_eq_local {a b : Entry} (hla : 0 < (twRanks a).length)
    (hlb : 0 < (twRanks b).length) :
    cmpQ a b =
      (if (twRanks a).length ≠ (twRanks b).length then
        ((twRanks b).length : ℚ) - ((twRanks a).length : ℚ)
      else if avgQ (twRanks a) ≠ avgQ (twRanks b) then
        avgQ (twRanks a) - avgQ (twRanks b)
      else if minN (twRanks a) ≠ minN (twRanks b) then
        (minN (twRanks a) : ℚ) - (minN (twRanks b) : ℚ)
      else (lexCmp a.website b.website : ℚ)) := by
  simp only [cmpQ]
  rw [if_neg (by omega), if_neg (by omega), if_pos ⟨hla, hlb⟩]

theorem cmpQ_eq_mixed_ab {a b : Entry} (hla : 0 < (twRanks a).length)
    (hlb : (twRanks b).length = 0) : cmpQ a b = -1 := by
  simp only [cmpQ]
  rw [if_pos ⟨hla, hlb⟩]

theorem cmpQ_eq_mixed_ba {a b : Entry} (hla : (twRanks a).length = 0)
    (hlb : 0 < (twRanks b).length) : cmpQ a b = 1 := by
  simp only [cmpQ]
  rw [if_neg (by omega), if_pos ⟨hla, hlb⟩]

theorem cmpQ_eq_nonlocal {a b : Entry} (hla : (twRanks a).length = 0)
    (hlb : (twRanks b).length = 0) :
    cmpQ a b =
      (match a.rank.tranco, b.rank.tranco with
      | some ra, some rb =>
        if ra ≠ rb then (ra : ℚ) - (rb : ℚ)
        else (lexCmp a.website b.website : ℚ)
      | some _, none => -1
      | none, some _ => 1
      | none, none => (lexCmp a.website b.website : ℚ)) := by
  simp only [cmpQ]
  rw [if_neg (by omega), if_neg (by omega), if_neg (by omega)]

theorem avgQ_sub_nonpos_iff {ta tb : List Nat} (hl : ta.length = tb.length)
    (hpos : 0 < ta.length) :
    (avgQ ta - avgQ tb ≤ 0 ↔ ta.sum ≤ tb.sum) := by
  rw [avgQ, avgQ, ← hl, div_sub_div_same,
    div_le_iff₀ (Nat.cast_pos.mpr hpos), zero_mul, sub_nonpos, Nat.cast_le]

theorem avgQ_eq_iff {ta tb : List Nat} (hl : ta.length = tb.length)
    (hpos : 0 < ta.length) : (avgQ ta = avgQ tb ↔ ta.sum = tb.sum) := by
  rw [avgQ, avgQ, ← hl, ← sub_eq_zero, div_sub_div_same, div_eq_zero_iff]
  have hn : ((ta.length : ℚ)) ≠ 0 := ne_of_gt (Nat.cast_pos.mpr hpos)
  constructor
  · rintro (hx | hx)
    · rw [sub_eq_zero] at hx
      exact_mod_cast hx
    · exact absurd hx hn
  · intro hx
    left
    rw [sub_eq_zero]
    exact_mod_cast hx

theorem cmpQ_le_iff (a b : Entry) : cmpQ a b ≤ 0 ↔ cmpR a b ≤ 0 := by
  by_cases hla : 0 < (twRanks a).length <;> by_cases hlb : 0 < (twRanks b).length
  · rw [cmpQ_eq_local hla hlb, cmpR_eq_local hla hlb]
    by_cases hl : (twRanks a).length = (twRanks b).length
    · have hln : ¬((twRanks a).length ≠ (twRanks b).length) := by omega
      rw [if_neg hln, if_neg hln]
      by_cases hs : (twRanks a).sum = (twRanks b).sum
      · have havg : avgQ (twRanks a) = avgQ (twRanks b) :=
          (avgQ_eq_iff hl hla).mpr hs
        have havgn : ¬(avgQ (twRanks a) ≠ avgQ (twRanks b)) := by
          simpa using havg
        have hsn : ¬((twRanks a).sum ≠ (twRanks b).sum) := by omega
        rw [if_neg havgn, if_neg hsn]
        by_cases hm : minN (twRanks a) = minN (twRanks b)
        · have hmn : ¬(minN (twRanks a) ≠ minN (twRanks b)) := by omega
          rw [if_neg hmn, if_neg hmn, Int.cast_nonpos]
        · rw [if_pos hm, if_pos hm, sub_nonpos, sub_nonpos, Nat.cast_le,
            Nat.cast_le]
      · have havg : avgQ (twRanks a) ≠ avgQ (twRanks b) :=
          fun hx => hs ((avgQ_eq_iff hl hla).mp hx)
        rw [if_pos havg, if_pos hs, avgQ_sub_nonpos_iff hl hla, sub_nonpos,
          Nat.cast_le]
    · rw [if_pos hl, if_pos hl, sub_nonpos, sub_nonpos, Nat.cast_le,
        Nat.cast_le]
  · rw [cmpQ_eq_mixed_ab hla (by omega), cmpR_eq_mixed_ab hla (by omega)]
    norm_num
  · rw [cmpQ_eq_mixed_ba (by omega) hlb, cmpR_eq_mixed_ba (by omega) hlb]
    norm_num
  · have h0a : (twRanks a).length = 0 := by omega
    have h0b : (twRanks b).length = 0 := by omega
    rcases ha : a.rank.tranco with _ | ra <;> rcases hb : b.rank.tranco with _ | rb <;>
      rw [cmpQ_eq_nonlocal h0a h0b, cmpR_eq_nonlocal h0a h0b, ha, hb]
    · rw [Int.cast_nonpos]
    · change (1 : ℚ) ≤ 0 ↔ (1 : Int) ≤ 0
      norm_num
    · change (-1 : ℚ) ≤ 0 ↔ (-1 : Int) ≤ 0
      norm_num
    · change (if ra ≠ rb then (ra : ℚ) - (rb : ℚ)
          else (lexCmp a.website b.website : ℚ)) ≤ 0 ↔
        (if ra ≠ rb then (ra : Int) - (rb : Int)
          else lexCmp a.website b.website) ≤ 0
      by_cases hr : ra = rb
      · rw [if_neg (by omega), if_neg (by omega), Int.cast_nonpos]
      · rw [if_pos hr, if_pos hr, sub_nonpos, sub_nonpos, Nat.cast_le,
          Nat.cast_le]

theorem cmpQ_zero_iff (a b : Entry) : cmpQ a b = 0 ↔ cmpR a b = 0 := by
  by_cases hla : 0 < (twRanks a).length <;> by_cases hlb : 0 < (twRanks b).length
  · rw [cmpQ_eq_local hla hlb, cmpR_eq_local hla hlb]
    by_cases hl : (twRanks a).length = (twRanks b).length
    · have hln : ¬((twRanks a).length ≠ (twRanks b).length) := by omega
      rw [if_neg hln, if_neg hln]
      by_cases hs : (twRanks a).sum = (twRanks b).sum
      · have havg : avgQ (twRanks a) = avgQ (twRanks b) :=
          (avgQ_eq_iff hl hla).mpr hs
        have havgn : ¬(avgQ (twRanks a) ≠ avgQ (twRanks b)) := by
          simpa using havg
        have hsn : ¬((twRanks a).sum ≠ (twRanks b).sum) := by omega
        rw [if_neg havgn, if_neg hsn]
        by_cases hm : minN (twRanks a) = minN (twRanks b)
        · have hmn : ¬(minN (twRanks a) ≠ minN (twRanks b)) := by omega
          rw [if_neg hmn, if_neg hmn, Int.cast_eq_zero]
        · rw [if_pos hm, if_pos hm, sub_eq_zero, sub_eq_zero, Nat.cast_inj,
            Nat.cast_inj]
      · have havg : avgQ (twRanks a) ≠ avgQ (twRanks b) :=
          fun hx => hs ((avgQ_eq_iff hl hla).mp hx)
        rw [if_pos havg, if_pos hs]
        constructor
        · intro hx
          rw [sub_eq_zero] at hx
          exact absurd hx havg
        · intro hx
          rw [sub_eq_zero, Nat.cast_inj] at hx
          exact absurd hx hs
    · rw [if_pos hl, if_pos hl, sub_eq_zero, sub_eq_zero, Nat.cast_inj,
        Nat.cast_inj]
  · rw [cmpQ_eq_mixed_ab hla (by omega), cmpR_eq_mixed_ab hla (by omega)]
    norm_num
  · rw [cmpQ_eq_mixed_ba (by omega) hlb, cmpR_eq_mixed_ba (by omega) hlb]
    norm_num
  · have h0a : (twRanks a).length = 0 := by omega
    have h0b : (twRanks b).length = 0 := by omega
    rcases ha : a.rank.tranco with _ | ra <;> rcases hb : b.rank.tranco with _ | rb <;>
      rw [cmpQ_eq_nonlocal h0a h0b, cmpR_eq_nonlocal h0a h0b, ha, hb]
    · rw [Int.cast_eq_zero]
    · change (1 : ℚ) = 0 ↔ (1 : Int) = 0
      norm_num
    · change (-1 : ℚ) = 0 ↔ (-1 : Int) = 0
      norm_num
    · change (if ra ≠ rb then (ra : ℚ) - (rb : ℚ)
          else (lexCmp a.website b.website : ℚ)) = 0 ↔
        (if ra ≠ rb then (ra : Int) - (rb : Int)
          else lexCmp a.website b.website) = 0
      by_cases hr : ra = rb
      · rw [if_neg (by omega), if_neg (by omega), Int.cast_eq_zero]
      · rw [if_pos hr, if_pos hr, sub_eq_zero, sub_eq_zero, Nat.cast_inj,
          Nat.cast_inj]

/-! ### Sorting infrastructure -/

theorem sortEntries_sorted (l : List Entry) : (sortEntries l).Sorted leP := by
  haveI : IsTotal Entry leP := ⟨leP_total⟩
  haveI : IsTrans Entry leP := ⟨fun _ _ _ h1 h2 => leP_trans h1 h2⟩
  exact List.sorted_insertionSort leP l

theorem sortEntries_perm (l : List Entry) : (sortEntries l).Perm l :=
  List.perm_insertionSort leP l

theorem sorted_perm_eq : ∀ {l1 l2 : List Entry}, l1.Perm l2 →
    l1.Sorted leP → l2.Sorted leP →
    (∀ a ∈ l1, ∀ b ∈ l1, a ≠ b → a.website ≠ b.website) → l1 = l2 := by
  intro l1
  induction l1 with
  | nil =>
    intro l2 hp _ _ _
    exact (List.Perm.eq_nil hp.symm).symm
  | cons a t ih =>
    intro l2 hp hs1 hs2 hdis
    cases l2 with
    | nil => exact absurd (List.Perm.eq_nil hp) (by simp)
    | cons b t2 =>
      have hab : a = b := by
        have hainl2 : a ∈ b :: t2 := hp.mem_iff.mp (List.mem_cons_self a t)
        have hbinl1 : b ∈ a :: t := hp.mem_iff.mpr (List.mem_cons_self b t2)
        rcases List.mem_cons.mp hainl2 with h | h
        · exact h
        rcases List.mem_cons.mp hbinl1 with h' | h'
        · exact h'.symm
        have h1 : leP a b := (List.sorted_cons.mp hs1).1 b h'
        have h2 : leP b a := (List.sorted_cons.mp hs2).1 a h
        have hw : a.website = b.website := leP_antisymm_website h1 h2
        by_contra hne
        exact hdis a (List.mem_cons_self a t) b hbinl1 hne hw
      subst hab
      have hp' := hp.cons_inv
      have hrec := ih hp' (List.sorted_cons.mp hs1).2 (List.sorted_cons.mp hs2).2
        (fun x hx y hy hxy =>
          hdis x (List.mem_cons_of_mem a hx) y (List.mem_cons_of_mem a hy) hxy)
      rw [hrec]

theorem fillUrl_website (e : Entry) : (fillUrl e).website = e.website := by
  unfold fillUrl
  split
  · rfl
  · split <;> rfl

theorem fillUrl_rank (e : Entry) : (fillUrl e).rank = e.rank := by
  unfold fillUrl
  split
  · rfl
  · split <;> rfl

theorem fillUrl_url_isSome (e : Entry) : ((fillUrl e).url).isSome = true := by
  unfold fillUrl
  split
  · rfl
  · split
    · rfl
    · rename_i heq _
      rw [heq]
      rfl

theorem cmpR_congr {a a' b b' : Entry} (ha1 : a.website = a'.website)
    (ha2 : a.rank = a'.rank) (hb1 : b.website = b'.website)
    (hb2 : b.rank = b'.rank) : cmpR a b = cmpR a' b' := by
  have hta : twRanks a = twRanks a' := by
    unfold twRanks
    rw [ha2]
  have htb : twRanks b = twRanks b' := by
    unfold twRanks
    rw [hb2]
  simp only [cmpR]
  rw [hta, htb, ha1, hb1, ha2, hb2]

theorem cmpR_fillUrl (a b : Entry) : cmpR (fillUrl a) (fillUrl b) = cmpR a b :=
  cmpR_congr (fillUrl_website a) (fillUrl_rank a) (fillUrl_website b)
    (fillUrl_rank b)

theorem rankEntries_pairwise (l : List Entry) :
    (rankEntries l).Pairwise leP := by
  rw [rankEntries, List.pairwise_map]
  refine (sortEntries_sorted l).imp ?_
  intro x y h
  show cmpR (fillUrl x) (fillUrl y) ≤ 0
  rw [cmpR_fillUrl]
  exact h

/-- C9: the Composite Ranker is deterministic: on two enumerations of the
same merged mapping (permutations with pairwise distinct keys) it emits
identical output sequences; and the comparator returns a tie only for
identical keys (the final tie-break is the lexicographic key comparison),
so the order it induces on distinct keys is strict and total. -/
theorem C9_ranker_deterministic :
    (∀ l1 l2 : List Entry, l1.Perm l2 →
      (∀ a ∈ l1, ∀ b ∈ l1, a ≠ b → a.website ≠ b.website) →
      rankEntries l1 = rankEntries l2) ∧
    (∀ a b : Entry, cmpR a b = 0 → a.website = b.website) ∧
    (∀ a b : Entry, leP a b ∨ leP b a) := by
  refine ⟨?_, fun a b => cmpR_zero_website, leP_total⟩
  intro l1 l2 hp hdis
  have hps : (sortEntries l1).Perm (sortEntries l2) :=
    ((sortEntries_perm l1).trans hp).trans (sortEntries_perm l2).symm
  have hdis' : ∀ a ∈ sortEntries l1, ∀ b ∈ sortEntries l1,
      a ≠ b → a.website ≠ b.website := by
    intro a ha b hb hne
    exact hdis a ((sortEntries_perm l1).mem_iff.mp ha)
      b ((sortEntries_perm l1).mem_iff.mp hb) hne
  have heq : sortEntries l1 = sortEntries l2 :=
    sorted_perm_eq hps (sortEntries_sorted l1) (sortEntries_sorted l2) hdis'
  rw [rankEntries, rankEntries, heq]

/-- C9 (witness): the determinism theorem applied to a two-element merged
mapping enumerated in both orders. -/
theorem C9_witness :
    rankEntries [⟨("a.tw".data), none, ⟨some 3, none, none, none, none⟩⟩,
        ⟨("b.tw".data), none, ⟨none, some 1, none, none, none⟩⟩] =
      rankEntries [⟨("b.tw".data), none, ⟨none, some 1, none, none, none⟩⟩,
        ⟨("a.tw".data), none, ⟨some 3, none, none, none, none⟩⟩] :=
  C9_ranker_deterministic.1 _ _
    (List.Perm.swap _ _ _)
    (by decide)

/-- C6: in the final output, every entry holding at least one local-market
rank (cloudflare, similarweb, ahrefs, semrush) precedes every entry
holding none: if a later entry has a local rank, so does every earlier
one. -/
theorem C6_tier_ordering (tr : List TrancoItem) (ah cf sw sr : List SecItem)
    (i j : Fin (mergeLists tr ah cf sw sr).length) (hij : i < j)
    (hj : twRanks ((mergeLists tr ah cf sw sr).get j) ≠ []) :
    twRanks ((mergeLists tr ah cf sw sr).get i) ≠ [] := by
  have hpw : (mergeLists tr ah cf sw sr).Pairwise leP := by
    rw [mergeLists]
    exact rankEntries_pairwise _
  have hle : leP ((mergeLists tr ah cf sw sr).get i)
      ((mergeLists tr ah cf sw sr).get j) :=
    List.pairwise_iff_get.mp hpw i j hij
  intro hi0
  have h1 : (twRanks ((mergeLists tr ah cf sw sr).get i)).length = 0 := by
    rw [hi0]
    rfl
  have h2 : 0 < (twRanks ((mergeLists tr ah cf sw sr).get j)).length :=
    List.length_pos.mpr hj
  have hone := cmpR_eq_mixed_ba h1 h2
  unfold leP at hle
  omega

/-- C6 (witness): with cloudflare ranking two domains and tranco one, the
two local-market entries occupy the first two output positions. -/
theorem C6_witness :
    twRanks ((mergeLists [⟨("z.tw".data), none, 1⟩] []
      [⟨("b.tw".data), 3⟩, ⟨("c.tw".data), 5⟩] [] []).get
        ⟨0, by decide⟩) ≠ [] :=
  C6_tier_ordering [⟨("z.tw".data), none, 1⟩] []
    [⟨("b.tw".data), 3⟩, ⟨("c.tw".data), 5⟩] [] []
    ⟨0, by decide⟩ ⟨1, by decide⟩ (by decide) (by decide)

/-- C7: within the tier of entries with no local-market rank, output
order is by tranco rank ascending, and an entry with no tranco rank at
all comes after every entry of that tier that has one. -/
theorem C7_tranco_tier_order (tr : List TrancoItem)
    (ah cf sw sr : List SecItem)
    (i j : Fin (mergeLists tr ah cf sw sr).length) (hij : i < j)
    (hi : twRanks ((mergeLists tr ah cf sw sr).get i) = [])
    (hj : twRanks ((mergeLists tr ah cf sw sr).get j) = []) :
    (((mergeLists tr ah cf sw sr).get i).rank.tranco = none →
      ((mergeLists tr ah cf sw sr).get j).rank.tranco = none) ∧
    (∀ ri rj, ((mergeLists tr ah cf sw sr).get i).rank.tranco = some ri →
      ((mergeLists tr ah cf sw sr).get j).rank.tranco = some rj → ri ≤ rj) := by
  have hpw : (mergeLists tr ah cf sw sr).Pairwise leP := by
    rw [mergeLists]
    exact rankEntries_pairwise _
  have hle : leP ((mergeLists tr ah cf sw sr).get i)
      ((mergeLists tr ah cf sw sr).get j) :=
    List.pairwise_iff_get.mp hpw i j hij
  have h1 : (twRanks ((mergeLists tr ah cf sw sr).get i)).length = 0 := by
    rw [hi]
    rfl
  have h2 : (twRanks ((mergeLists tr ah cf sw sr).get j)).length = 0 := by
    rw [hj]
    rfl
  unfold leP at hle
  rw [cmpR_eq_nonlocal h1 h2] at hle
  rcases hgi : ((mergeLists tr ah cf sw sr).get i).rank.tranco with _ | ri <;>
    rcases hgj : ((mergeLists tr ah cf sw sr).get j).rank.tranco with _ | rj
  · exact ⟨fun _ => rfl, fun ri rj hx _ => absurd hx (by simp)⟩
  · rw [hgi, hgj] at hle
    change (1 : Int) ≤ 0 at hle
    exact absurd hle (by decide)
  · exact ⟨fun hx => absurd hx (by simp), fun ri' rj' _ hx => absurd hx (by simp)⟩
  · rw [hgi, hgj] at hle
    change (if ri ≠ rj then (ri : Int) - (rj : Int)
      else lexCmp ((mergeLists tr ah cf sw sr).get i).website
        ((mergeLists tr ah cf sw sr).get j).website) ≤ 0 at hle
    refine ⟨fun hx => absurd hx (by simp), ?_⟩
    intro ri' rj' e1 e2
    injection e1 with e1
    injection e2 with e2
    subst e1
    subst e2
    by_cases hr : ri = rj
    · omega
    · rw [if_pos hr] at hle
      omega

/-- C7 (witness): two tranco-only entries are output in ascending tranco
rank order: ranks 7 and 2 come out as 2 then 7. -/
theorem C7_witness :
    ((mergeLists [⟨("z.tw".data), none, 7⟩, ⟨("y.tw".data), none, 2⟩]
      [] [] [] []).get ⟨0, by decide⟩).rank.tranco = some 2 ∧
    ((mergeLists [⟨("z.tw".data), none, 7⟩, ⟨("y.tw".data), none, 2⟩]
      [] [] [] []).get ⟨1, by decide⟩).rank.tranco = some 7 ∧
    (2 : Nat) ≤ 7 :=
  ⟨by decide, by decide,
    (C7_tranco_tier_order [⟨("z.tw".data), none, 7⟩, ⟨("y.tw".data), none, 2⟩]
      [] [] [] [] ⟨0, by decide⟩ ⟨1, by decide⟩ (by decide)
      (by decide) (by decide)).2 2 7 (by decide) (by decide)⟩

/-- C8: the post-sort URL pass synthesizes exactly `https://{website}` for
a missing URL, never changes the comparator value of any entry (sort keys
depend only on the rank mapping and the website), and every entry of the
final output carries a present URL. -/
theorem C8_url_synthesis (tr : List TrancoItem) (ah cf sw sr : List SecItem) :
    (∀ a b : Entry, cmpR (fillUrl a) (fillUrl b) = cmpR a b) ∧
    (∀ e : Entry, e.url = none →
      fillUrl e = { e with url := some (("https://".data) ++ e.website) }) ∧
    (∀ e ∈ mergeLists tr ah cf sw sr, (e.url).isSome = true) := by
  refine ⟨cmpR_fillUrl, ?_, ?_⟩
  · intro e he
    unfold fillUrl
    rw [he]
  · intro e he
    rw [mergeLists, rankEntries] at he
    obtain ⟨x, _, rfl⟩ := List.mem_map.mp he
    exact fillUrl_url_isSome x

/-- C8 (witness): the URL pass applied to the single-entry pipeline and
to a concrete URL-less entry. -/
theorem C8_witness :
    ((⟨("z.tw".data), some (("https://".data) ++ ("z.tw".data)),
        ⟨some 1, none, none, none, none⟩⟩ : Entry).url).isSome = true ∧
    fillUrl ⟨("a.tw".data), none, RankMap.empty⟩ =
      ⟨("a.tw".data), some (("https://".data) ++ ("a.tw".data)),
        RankMap.empty⟩ :=
  ⟨(C8_url_synthesis [⟨("z.tw".data), none, 1⟩] [] [] [] []).2.2 _ (by decide),
    (C8_url_synthesis [] [] [] [] []).2.1 ⟨("a.tw".data), none, RankMap.empty⟩ rfl⟩

/-! ### RankMap helper lemmas -/

theorem RankMap.get_set_same (rm : RankMap) (s : Source) (r : Nat) :
    (rm.set s r).get s = some r := by
  cases s <;> rfl

theorem RankMap.get_set_ne (rm : RankMap) {s s' : Source} (h : s' ≠ s)
    (r : Nat) : (rm.set s r).get s' = rm.get s' := by
  cases s <;> cases s' <;> first | rfl | exact absurd rfl h

theorem RankMap.set_set (rm : RankMap) (s : Source) (r1 r2 : Nat) :
    (rm.set s r1).set s r2 = rm.set s r2 := by
  cases s <;> rfl

theorem RankMap.set_get_eq {rm : RankMap} {s : Source} {r : Nat}
    (h : rm.get s = some r) : rm.set s r = rm := by
  cases rm
  cases s <;> simp [RankMap.get] at h <;> simp [RankMap.set, h]

/-- C4: the primary (tranco) conflict rule on two records with the same
key: the strictly smaller rank wins and carries its URL together with the
rank; on a tie or a larger rank the earlier record's URL and rank are
kept. -/
theorem C4_primary_conflict (i1 i2 : TrancoItem) (h1 : i1.domain ≠ [])
    (h2 : i2.domain ≠ [])
    (hk : normalizeWebsite i1.domain = normalizeWebsite i2.domain) :
    mergeTranco [] [i1, i2] =
      [⟨normalizeWebsite i1.domain,
        (if i2.rank < i1.rank then jsUrlOrNull i2.url else jsUrlOrNull i1.url),
        RankMap.empty.set .tranco
          (if i2.rank < i1.rank then i2.rank else i1.rank)⟩] := by
  have step1 : trancoStep [] i1 =
      [⟨normalizeWebsite i1.domain, jsUrlOrNull i1.url,
        RankMap.empty.set .tranco i1.rank⟩] := by
    simp only [trancoStep]
    rw [if_neg h1]
    rfl
  have hfind : findEntry
      [(⟨normalizeWebsite i1.domain, jsUrlOrNull i1.url,
        RankMap.empty.set .tranco i1.rank⟩ : Entry)]
      (normalizeWebsite i2.domain) =
      some ⟨normalizeWebsite i1.domain, jsUrlOrNull i1.url,
        RankMap.empty.set .tranco i1.rank⟩ := by
    unfold findEntry
    rw [← hk]
    simp [List.find?_cons]
  show List.foldl trancoStep [] [i1, i2] = _
  simp only [List.foldl_cons, List.foldl_nil]
  rw [step1]
  simp only [trancoStep]
  rw [if_neg h2, hfind]
  show (if i2.rank < i1.rank then
      updTrancoAt
        [⟨normalizeWebsite i1.domain, jsUrlOrNull i1.url,
          RankMap.empty.set .tranco i1.rank⟩]
        (normalizeWebsite i2.domain) (jsUrlOrNull i2.url) i2.rank
    else
      [⟨normalizeWebsite i1.domain, jsUrlOrNull i1.url,
        RankMap.empty.set .tranco i1.rank⟩]) = _
  by_cases hr : i2.rank < i1.rank
  · rw [if_pos hr, if_pos hr, if_pos hr]
    unfold updTrancoAt
    rw [← hk]
    simp [RankMap.set_set]
  · rw [if_neg hr, if_neg hr, if_neg hr]

/-- C4 (witness): the spec's example, rank 5 then rank 2 on the same
domain: the entry keeps rank 2 and the second record's URL. -/
theorem C4_witness :
    mergeTranco []
      [⟨("a.tw".data), some ("https://a.tw".data), 5⟩,
        ⟨("a.tw".data), some ("https://a2.tw".data), 2⟩] =
      [⟨("a.tw".data), some ("https://a2.tw".data),
        RankMap.empty.set .tranco 2⟩] := by
  have h := C4_primary_conflict
    ⟨("a.tw".data), some ("https://a.tw".data), 5⟩
    ⟨("a.tw".data), some ("https://a2.tw".data), 2⟩
    (by decide) (by decide) (by decide)
  rw [h]
  decide

/-- Length is preserved when a non-primary record updates an existing
entry. -/
theorem secStep_length_of_found {s : Source} {m : List Entry} {it : SecItem}
    (hdom : it.domain ≠ [])
    (hkey : (findEntry m (normalizeWebsite it.domain)).isSome = true) :
    (secStep s m it).length = m.length := by
  simp only [secStep]
  rw [if_neg hdom]
  obtain ⟨f, hf⟩ := Option.isSome_iff_exists.mp hkey
  rw [hf]
  exact List.length_map _ _

/-- C10: frame property of one non-primary fold step on an existing key:
lengths and positions are preserved; at every position the website, the
url and every other source's rank are unchanged; entries at other keys
are untouched entirely; and the entry at the record's key gets exactly
`rank[s] = it.rank`. -/
theorem C10_secondary_frame (s : Source) (m : List Entry) (it : SecItem)
    (hdom : it.domain ≠ [])
    (hkey : (findEntry m (normalizeWebsite it.domain)).isSome = true) :
    (secStep s m it).length = m.length ∧
    (∀ i : Nat, i < m.length →
      ∃ e e', m[i]? = some e ∧ (secStep s m it)[i]? = some e' ∧
        e'.website = e.website ∧ e'.url = e.url ∧
        (∀ s', s' ≠ s → e'.rank.get s' = e.rank.get s') ∧
        (e.website ≠ normalizeWebsite it.domain → e' = e) ∧
        (e.website = normalizeWebsite it.domain →
          e'.rank.get s = some it.rank)) := by
  refine ⟨secStep_length_of_found hdom hkey, ?_⟩
  intro i hi
  have hstep : secStep s m it = setRankAt m (normalizeWebsite it.domain) s
      it.rank := by
    simp only [secStep]
    rw [if_neg hdom]
    obtain ⟨f, hf⟩ := Option.isSome_iff_exists.mp hkey
    rw [hf]
  have he : m[i]? = some m[i] := List.getElem?_eq_getElem hi
  refine ⟨m[i], (if m[i].website == normalizeWebsite it.domain then
    { m[i] with rank := m[i].rank.set s it.rank } else m[i]), he, ?_, ?_, ?_, ?_, ?_, ?_⟩
  · rw [hstep]
    unfold setRankAt
    rw [List.getElem?_map, he]
    rfl
  · split <;> rfl
  · split <;> rfl
  · intro s' hs'
    split
    · exact RankMap.get_set_ne m[i].rank hs' it.rank
    · rfl
  · intro hne
    rw [if_neg (by simpa using hne)]
  · intro heq
    rw [if_pos (by simpa using heq)]
    exact RankMap.get_set_same m[i].rank s it.rank

/-- C10 (witness): the frame property applied at a concrete two-entry map
and a cloudflare record hitting the first key. -/
theorem C10_witness :
    (secStep .cloudflare
      [⟨("a.tw".data), none, RankMap.empty.set .tranco 4⟩,
        ⟨("b.tw".data), none, RankMap.empty.set .tranco 9⟩]
      ⟨("a.tw".data), 7⟩).length =
      ([⟨("a.tw".data), none, RankMap.empty.set .tranco 4⟩,
        ⟨("b.tw".data), none, RankMap.empty.set .tranco 9⟩] :
          List Entry).length :=
  (C10_secondary_frame .cloudflare
    [⟨("a.tw".data), none, RankMap.empty.set .tranco 4⟩,
      ⟨("b.tw".data), none, RankMap.empty.set .tranco 9⟩]
    ⟨("a.tw".data), 7⟩ (by decide) (by decide)).1

/-! ### Non-primary fold machinery -/

theorem setRankAt_website (m : List Entry) (k : List Char) (s : Source)
    (r : Nat) : ∀ e ∈ setRankAt m k s r, ∃ e0 ∈ m, e.website = e0.website := by
  intro e he
  obtain ⟨e0, he0, rfl⟩ := List.mem_map.mp he
  refine ⟨e0, he0, ?_⟩
  split <;> rfl

theorem findEntry_setRankAt_isSome (m : List Entry) (k k' : List Char)
    (s : Source) (r : Nat) :
    (findEntry (setRankAt m k' s r) k).isSome = (findEntry m k).isSome := by
  induction m with
  | nil => rfl
  | cons e t ih =>
    simp only [setRankAt, List.map_cons] at *
    by_cases hw : (e.website == k) = true
    · have hw' : (((if (e.website == k') = true then
          { e with rank := e.rank.set s r } else e) : Entry).website == k) =
          true := by
        split <;> exact hw
      rw [findEntry, findEntry,
        @List.find?_cons_of_pos Entry (fun x => x.website == k) _ _ hw',
        @List.find?_cons_of_pos Entry (fun x => x.website == k) _ _ hw]
      rfl
    · have hw' : ¬(((if (e.website == k') = true then
          { e with rank := e.rank.set s r } else e) : Entry).website == k) =
          true := by
        split <;> exact hw
      rw [findEntry, findEntry,
        @List.find?_cons_of_neg Entry (fun x => x.website == k) _ _ hw',
        @List.find?_cons_of_neg Entry (fun x => x.website == k) _ _ hw]
      exact ih

theorem findEntry_append_isSome (m : List Entry) (x : Entry) (k : List Char)
    (hx : (x.website == k) = true) :
    (findEntry (m ++ [x]) k).isSome = true := by
  induction m with
  | nil =>
    unfold findEntry
    rw [List.nil_append,
      @List.find?_cons_of_pos Entry (fun e => e.website == k) _ _ hx]
    rfl
  | cons e t ih =>
    by_cases hw : (e.website == k) = true
    · unfold findEntry
      rw [List.cons_append,
        @List.find?_cons_of_pos Entry (fun x => x.website == k) _ _ hw]
      rfl
    · unfold findEntry at *
      rw [List.cons_append,
        @List.find?_cons_of_neg Entry (fun x => x.website == k) _ _ hw]
      exact ih

theorem findEntry_append_left {m : List Entry} {k : List Char} {e0 : Entry}
    (h : findEntry m k = some e0) (l2 : List Entry) :
    findEntry (m ++ l2) k = some e0 := by
  induction m with
  | nil => exact absurd h (by simp [findEntry])
  | cons e t ih =>
    unfold findEntry at *
    by_cases hw : (e.website == k) = true
    · rw [@List.find?_cons_of_pos Entry (fun x => x.website == k) _ _ hw] at h
      rw [List.cons_append,
        @List.find?_cons_of_pos Entry (fun x => x.website == k) _ _ hw]
      exact h
    · rw [@List.find?_cons_of_neg Entry (fun x => x.website == k) _ _ hw] at h
      rw [List.cons_append,
        @List.find?_cons_of_neg Entry (fun x => x.website == k) _ _ hw]
      exact ih h

theorem secStep_isSome_mono {s : Source} {m : List Entry} {it : SecItem}
    {k : List Char} (h : (findEntry m k).isSome = true) :
    (findEntry (secStep s m it) k).isSome = true := by
  simp only [secStep]
  by_cases hd : it.domain = []
  · rw [if_pos hd]
    exact h
  · rw [if_neg hd]
    cases hf : findEntry m (normalizeWebsite it.domain) with
    | some f =>
      rw [findEntry_setRankAt_isSome]
      exact h
    | none =>
      obtain ⟨e0, he0⟩ := Option.isSome_iff_exists.mp h
      rw [findEntry_append_left he0]
      rfl

theorem setRankAt_setRankAt (m : List Entry) (k : List Char) (s : Source)
    (r1 r2 : Nat) :
    setRankAt (setRankAt m k s r1) k s r2 = setRankAt m k s r2 := by
  unfold setRankAt
  rw [List.map_map]
  apply List.map_congr_left
  intro e _
  by_cases hw : (e.website == k) = true
  · simp [Function.comp, hw, RankMap.set_set]
  · simp [Function.comp, hw]

theorem setRankAt_comm (m : List Entry) {k1 k2 : List Char} (h : k1 ≠ k2)
    (s : Source) (r1 r2 : Nat) :
    setRankAt (setRankAt m k1 s r1) k2 s r2 =
      setRankAt (setRankAt m k2 s r2) k1 s r1 := by
  unfold setRankAt
  rw [List.map_map, List.map_map]
  apply List.map_congr_left
  intro e _
  by_cases h1 : (e.website == k1) = true <;> by_cases h2 : (e.website == k2) = true
  · have e1 : e.website = k1 := by simpa using h1
    have e2 : e.website = k2 := by simpa using h2
    exact absurd (e1.symm.trans e2) h
  · simp [Function.comp, h1, h2]
  · simp [Function.comp, h1, h2]
  · simp [Function.comp, h1, h2]

theorem setRankAt_append (m : List Entry) (k : List Char) (s : Source)
    (r : Nat) (x : Entry) (hx : ¬(x.website == k) = true) :
    setRankAt (m ++ [x]) k s r = setRankAt m k s r ++ [x] := by
  unfold setRankAt
  rw [List.map_append]
  simp only [List.map_cons, List.map_nil, if_neg hx]

theorem setRankAt_eq_self {m : List Entry} {k : List Char} {s : Source}
    {r : Nat} (h : ∀ e ∈ m, e.website = k → e.rank.get s = some r) :
    setRankAt m k s r = m := by
  unfold setRankAt
  have hfix : ∀ e ∈ m, (if (e.website == k) = true then
      ({ e with rank := e.rank.set s r } : Entry) else e) = e := by
    intro e he
    by_cases hw : (e.website == k) = true
    · rw [if_pos hw]
      have hk : e.website = k := by simpa using hw
      rw [RankMap.set_get_eq (h e he hk)]
    · rw [if_neg hw]
  rw [List.map_congr_left hfix, List.map_id']

theorem secStep_skip {s : Source} {m : List Entry} {it : SecItem}
    (hd : it.domain = []) : secStep s m it = m := by
  simp only [secStep]
  rw [if_pos hd]

theorem secStep_eq_setRankAt {s : Source} {m : List Entry} {it : SecItem}
    (hd : it.domain ≠ [])
    (hkey : (findEntry m (normalizeWebsite it.domain)).isSome = true) :
    secStep s m it = setRankAt m (normalizeWebsite it.domain) s it.rank := by
  simp only [secStep]
  rw [if_neg hd]
  obtain ⟨f, hf⟩ := Option.isSome_iff_exists.mp hkey
  rw [hf]

theorem secStep_eq_append {s : Source} {m : List Entry} {it : SecItem}
    (hd : it.domain ≠ [])
    (hkey : findEntry m (normalizeWebsite it.domain) = none) :
    secStep s m it =
      m ++ [⟨normalizeWebsite it.domain, none,
        RankMap.empty.set s it.rank⟩] := by
  simp only [secStep]
  rw [if_neg hd, hkey]

theorem secStep_rank_at_key {s : Source} {m : List Entry} {it : SecItem}
    (hd : it.domain ≠ []) :
    ∀ e ∈ secStep s m it, e.website = normalizeWebsite it.domain →
      e.rank.get s = some it.rank := by
  intro e he hw
  cases hf : findEntry m (normalizeWebsite it.domain) with
  | some f =>
    rw [secStep_eq_setRankAt hd (by rw [hf]; rfl)] at he
    obtain ⟨e0, he0, rfl⟩ := List.mem_map.mp he
    by_cases hww : (e0.website == normalizeWebsite it.domain) = true
    · rw [if_pos hww]
      exact RankMap.get_set_same _ _ _
    · rw [if_neg hww] at hw
      have hx : (e0.website == normalizeWebsite it.domain) = true := by
        rw [hw]
        exact beq_self_eq_true _
      exact absurd hx hww
  | none =>
    rw [secStep_eq_append hd hf] at he
    rcases List.mem_append.mp he with h | h
    · have hno := List.find?_eq_none.mp hf e h
      have hx : (e.website == normalizeWebsite it.domain) = true := by
        rw [hw]
        exact beq_self_eq_true _
      exact absurd hx (by simpa using hno)
    · have hx : e = ⟨normalizeWebsite it.domain, none,
          RankMap.empty.set s it.rank⟩ := by simpa using h
      rw [hx]
      exact RankMap.get_set_same _ _ _

theorem mem_secStep_frame {s : Source} {m : List Entry} {it : SecItem}
    {k : List Char} (hne : it.domain ≠ [] → normalizeWebsite it.domain ≠ k) :
    ∀ e ∈ secStep s m it, e.website = k → e ∈ m := by
  intro e he hw
  by_cases hd : it.domain = []
  · rw [secStep_skip hd] at he
    exact he
  · cases hf : findEntry m (normalizeWebsite it.domain) with
    | some f =>
      rw [secStep_eq_setRankAt hd (by rw [hf]; rfl)] at he
      obtain ⟨e0, he0, rfl⟩ := List.mem_map.mp he
      by_cases hww : (e0.website == normalizeWebsite it.domain) = true
      · rw [if_pos hww] at hw
        have h1 : e0.website = normalizeWebsite it.domain := by simpa using hww
        have h2 : e0.website = k := hw
        exact absurd (h1.symm.trans h2) (hne hd)
      · rw [if_neg hww]
        exact he0
    | none =>
      rw [secStep_eq_append hd hf] at he
      rcases List.mem_append.mp he with h | h
      · exact h
      · have hx : e = ⟨normalizeWebsite it.domain, none,
            RankMap.empty.set s it.rank⟩ := by simpa using h
        rw [hx] at hw
        exact absurd hw (hne hd)

theorem mem_fold_frame {s : Source} {k : List Char} :
    ∀ (d : List SecItem) (m : List Entry),
      (∀ j ∈ d, j.domain ≠ [] → normalizeWebsite j.domain ≠ k) →
      ∀ e ∈ mergeSecondary s m d, e.website = k → e ∈ m := by
  intro d
  induction d with
  | nil =>
    intro m _ e he _
    exact he
  | cons j d' ih =>
    intro m hd e he hw
    have he' : e ∈ secStep s m j :=
      ih (secStep s m j) (fun x hx => hd x (List.mem_cons_of_mem j hx)) e he hw
    exact mem_secStep_frame (fun hjd => hd j (List.mem_cons_self j d') hjd)
      e he' hw

theorem mergeSecondary_isSome_mono {s : Source} {k : List Char} :
    ∀ (d : List SecItem) (m : List Entry),
      (findEntry m k).isSome = true →
      (findEntry (mergeSecondary s m d) k).isSome = true := by
  intro d
  induction d with
  | nil =>
    intro m h
    exact h
  | cons j d' ih =>
    intro m h
    exact ih (secStep s m j) (secStep_isSome_mono h)

theorem fold_absorb_set (s : Source) (r : Nat) :
    ∀ (d : List SecItem) (m : List Entry) (k : List Char),
      (findEntry m k).isSome = true →
      (∃ j ∈ d, j.domain ≠ [] ∧ normalizeWebsite j.domain = k) →
      mergeSecondary s (setRankAt m k s r) d = mergeSecondary s m d := by
  intro d
  induction d with
  | nil =>
    intro m k _ hex
    obtain ⟨j, hj, _⟩ := hex
    exact absurd hj (List.not_mem_nil j)
  | cons j d' ih =>
    intro m k hkey hex
    show mergeSecondary s (secStep s (setRankAt m k s r) j) d' =
      mergeSecondary s (secStep s m j) d'
    by_cases hjd : j.domain = []
    · rw [secStep_skip hjd, secStep_skip hjd]
      apply ih m k hkey
      obtain ⟨j0, hj0, hj0d, hj0k⟩ := hex
      rcases List.mem_cons.mp hj0 with rfl | h
      · exact absurd hjd hj0d
      · exact ⟨j0, h, hj0d, hj0k⟩
    · by_cases hkk : normalizeWebsite j.domain = k
      · have hkey2 : (findEntry (setRankAt m k s r)
            (normalizeWebsite j.domain)).isSome = true := by
          rw [findEntry_setRankAt_isSome, hkk]
          exact hkey
        rw [secStep_eq_setRankAt hjd hkey2,
          secStep_eq_setRankAt hjd (by rw [hkk]; exact hkey), hkk,
          setRankAt_setRankAt]
      · have hcomm : secStep s (setRankAt m k s r) j =
            setRankAt (secStep s m j) k s r := by
          cases hf : findEntry m (normalizeWebsite j.domain) with
          | some f =>
            have hkey2 : (findEntry (setRankAt m k s r)
                (normalizeWebsite j.domain)).isSome = true := by
              rw [findEntry_setRankAt_isSome, hf]
              rfl
            rw [secStep_eq_setRankAt hjd hkey2,
              secStep_eq_setRankAt hjd (by rw [hf]; rfl)]
            exact setRankAt_comm m (fun hx => hkk hx.symm) s r j.rank
          | none =>
            have hnone2 : findEntry (setRankAt m k s r)
                (normalizeWebsite j.domain) = none := by
              have hiso := findEntry_setRankAt_isSome m
                (normalizeWebsite j.domain) k s r
              rw [hf] at hiso
              cases hx : findEntry (setRankAt m k s r)
                  (normalizeWebsite j.domain) with
              | none => rfl
              | some f =>
                rw [hx] at hiso
                simp at hiso
            rw [secStep_eq_append hjd hnone2, secStep_eq_append hjd hf]
            exact (setRankAt_append m k s r _ (by simp [hkk])).symm
        rw [hcomm]
        apply ih (secStep s m j) k (secStep_isSome_mono hkey)
        obtain ⟨j0, hj0, hj0d, hj0k⟩ := hex
        rcases List.mem_cons.mp hj0 with rfl | h
        · exact absurd hj0k hkk
        · exact ⟨j0, h, hj0d, hj0k⟩

/-- C5: folding the same non-primary source list twice produces the same
merged map as folding it once: the per-record action is an idempotent
overwrite of `rank[sourceName]`, with the later occurrence of a key
winning. -/
theorem C5_secondary_fold_idempotent (s : Source) (d : List SecItem) :
    ∀ m : List Entry,
      mergeSecondary s (mergeSecondary s m d) d = mergeSecondary s m d := by
  induction d with
  | nil =>
    intro m
    rfl
  | cons it d' ih =>
    intro m
    show mergeSecondary s
        (secStep s (mergeSecondary s (secStep s m it) d') it) d' =
      mergeSecondary s (secStep s m it) d'
    by_cases hd : it.domain = []
    · rw [secStep_skip hd]
      exact ih (secStep s m it)
    · have hkey1 : (findEntry (secStep s m it)
          (normalizeWebsite it.domain)).isSome = true := by
        cases hf : findEntry m (normalizeWebsite it.domain) with
        | some f =>
          rw [secStep_eq_setRankAt hd (by rw [hf]; rfl),
            findEntry_setRankAt_isSome, hf]
          rfl
        | none =>
          rw [secStep_eq_append hd hf]
          exact findEntry_append_isSome _ _ _ (beq_self_eq_true _)
      have hkeyN : (findEntry (mergeSecondary s (secStep s m it) d')
          (normalizeWebsite it.domain)).isSome = true :=
        mergeSecondary_isSome_mono d' _ hkey1
      rw [secStep_eq_setRankAt hd hkeyN]
      by_cases hhit : ∃ j ∈ d', j.domain ≠ [] ∧
          normalizeWebsite j.domain = normalizeWebsite it.domain
      · rw [fold_absorb_set s it.rank d' _ _ hkeyN hhit]
        exact ih (secStep s m it)
      · have hset : setRankAt (mergeSecondary s (secStep s m it) d')
            (normalizeWebsite it.domain) s it.rank =
            mergeSecondary s (secStep s m it) d' := by
          apply setRankAt_eq_self
          intro e he hw
          have hnohit : ∀ j ∈ d', j.domain ≠ [] →
              normalizeWebsite j.domain ≠ normalizeWebsite it.domain := by
            intro j hj hjd
            by_contra hx
            exact hhit ⟨j, hj, hjd, hx⟩
          have hmem : e ∈ secStep s m it :=
            mem_fold_frame d' (secStep s m it) hnohit e he hw
          exact secStep_rank_at_key hd e hmem hw
        rw [hset]
        exact ih (secStep s m it)

/-! ### Empty-key behaviour -/

theorem updTrancoAt_website (m : List Entry) (k : List Char)
    (u : Option (List Char)) (r : Nat) :
    ∀ e ∈ updTrancoAt m k u r, ∃ e0 ∈ m, e.website = e0.website := by
  intro e he
  obtain ⟨e0, he0, rfl⟩ := List.mem_map.mp he
  exact ⟨e0, he0, by split <;> rfl⟩

theorem trancoStep_skip {m : List Entry} {it : TrancoItem}
    (hd : it.domain = []) : trancoStep m it = m := by
  simp only [trancoStep]
  rw [if_pos hd]

theorem trancoStep_found_lt {m : List Entry} {it : TrancoItem} {ex : Entry}
    {r0 : Nat} (hd : it.domain ≠ [])
    (hf : findEntry m (normalizeWebsite it.domain) = some ex)
    (hr : ex.rank.get .tranco = some r0) (hlt : it.rank < r0) :
    trancoStep m it =
      updTrancoAt m (normalizeWebsite it.domain) (jsUrlOrNull it.url)
        it.rank := by
  simp only [trancoStep]
  rw [if_neg hd, hf]
  show (match ex.rank.get Source.tranco with
    | some r0 => if it.rank < r0 then
        updTrancoAt m (normalizeWebsite it.domain) (jsUrlOrNull it.url)
          it.rank
      else m
    | none =>
      updTrancoAt m (normalizeWebsite it.domain) (jsUrlOrNull it.url)
        it.rank) = _
  rw [hr]
  show (if it.rank < r0 then
      updTrancoAt m (normalizeWebsite it.domain) (jsUrlOrNull it.url) it.rank
    else m) = _
  rw [if_pos hlt]

theorem trancoStep_found_ge {m : List Entry} {it : TrancoItem} {ex : Entry}
    {r0 : Nat} (hd : it.domain ≠ [])
    (hf : findEntry m (normalizeWebsite it.domain) = some ex)
    (hr : ex.rank.get .tranco = some r0) (hge : ¬it.rank < r0) :
    trancoStep m it = m := by
  simp only [trancoStep]
  rw [if_neg hd, hf]
  show (match ex.rank.get Source.tranco with
    | some r0 => if it.rank < r0 then
        updTrancoAt m (normalizeWebsite it.domain) (jsUrlOrNull it.url)
          it.rank
      else m
    | none =>
      updTrancoAt m (normalizeWebsite it.domain) (jsUrlOrNull it.url)
        it.rank) = _
  rw [hr]
  show (if it.rank < r0 then
      updTrancoAt m (normalizeWebsite it.domain) (jsUrlOrNull it.url) it.rank
    else m) = _
  rw [if_neg hge]

theorem trancoStep_found_none {m : List Entry} {it : TrancoItem} {ex : Entry}
    (hd : it.domain ≠ [])
    (hf : findEntry m (normalizeWebsite it.domain) = some ex)
    (hr : ex.rank.get .tranco = none) :
    trancoStep m it =
      updTrancoAt m (normalizeWebsite it.domain) (jsUrlOrNull it.url)
        it.rank := by
  simp only [trancoStep]
  rw [if_neg hd, hf]
  show (match ex.rank.get Source.tranco with
    | some r0 => if it.rank < r0 then
        updTrancoAt m (normalizeWebsite it.domain) (jsUrlOrNull it.url)
          it.rank
      else m
    | none =>
      updTrancoAt m (normalizeWebsite it.domain) (jsUrlOrNull it.url)
        it.rank) = _
  rw [hr]

theorem trancoStep_append {m : List Entry} {it : TrancoItem}
    (hd : it.domain ≠ [])
    (hf : findEntry m (normalizeWebsite it.domain) = none) :
    trancoStep m it =
      m ++ [⟨normalizeWebsite it.domain, jsUrlOrNull it.url,
        RankMap.empty.set .tranco it.rank⟩] := by
  simp only [trancoStep]
  rw [if_neg hd, hf]

theorem trancoStep_website_inv {P : List Char → Prop} {m : List Entry}
    {it : TrancoItem} (hm : ∀ e ∈ m, P e.website)
    (hit : it.domain ≠ [] → P (normalizeWebsite it.domain)) :
    ∀ e ∈ trancoStep m it, P e.website := by
  intro e he
  by_cases hd : it.domain = []
  · rw [trancoStep_skip hd] at he
    exact hm e he
  · cases hf : findEntry m (normalizeWebsite it.domain) with
    | some ex =>
      cases hr : ex.rank.get .tranco with
      | some r0 =>
        by_cases hlt : it.rank < r0
        · rw [trancoStep_found_lt hd hf hr hlt] at he
          obtain ⟨e0, he0, hw⟩ := updTrancoAt_website _ _ _ _ e he
          rw [hw]
          exact hm e0 he0
        · rw [trancoStep_found_ge hd hf hr hlt] at he
          exact hm e he
      | none =>
        rw [trancoStep_found_none hd hf hr] at he
        obtain ⟨e0, he0, hw⟩ := updTrancoAt_website _ _ _ _ e he
        rw [hw]
        exact hm e0 he0
    | none =>
      rw [trancoStep_append hd hf] at he
      rcases List.mem_append.mp he with h | h
      · exact hm e h
      · have hx : e = ⟨normalizeWebsite it.domain, jsUrlOrNull it.url,
            RankMap.empty.set .tranco it.rank⟩ := by simpa using h
        rw [hx]
        exact hit hd

theorem secStep_website_inv {P : List Char → Prop} {s : Source}
    {m : List Entry} {it : SecItem} (hm : ∀ e ∈ m, P e.website)
    (hit : it.domain ≠ [] → P (normalizeWebsite it.domain)) :
    ∀ e ∈ secStep s m it, P e.website := by
  intro e he
  by_cases hd : it.domain = []
  · rw [secStep_skip hd] at he
    exact hm e he
  · cases hf : findEntry m (normalizeWebsite it.domain) with
    | some f =>
      rw [secStep_eq_setRankAt hd (by rw [hf]; rfl)] at he
      obtain ⟨e0, he0, hw⟩ := setRankAt_website _ _ _ _ e he
      rw [hw]
      exact hm e0 he0
    | none =>
      rw [secStep_eq_append hd hf] at he
      rcases List.mem_append.mp he with h | h
      · exact hm e h
      · have hx : e = ⟨normalizeWebsite it.domain, none,
            RankMap.empty.set s it.rank⟩ := by simpa using h
        rw [hx]
        exact hit hd

theorem mergeTranco_website_inv {P : List Char → Prop} :
    ∀ (items : List TrancoItem) (m : List Entry),
      (∀ e ∈ m, P e.website) →
      (∀ it ∈ items, it.domain ≠ [] → P (normalizeWebsite it.domain)) →
      ∀ e ∈ mergeTranco m items, P e.website := by
  intro items
  induction items with
  | nil =>
    intro m hm _ e he
    exact hm e he
  | cons it items' ih =>
    intro m hm hits e he
    exact ih (trancoStep m it)
      (trancoStep_website_inv hm (hits it (List.mem_cons_self it items')))
      (fun x hx => hits x (List.mem_cons_of_mem it hx)) e he

theorem mergeSecondary_website_inv {P : List Char → Prop} {s : Source} :
    ∀ (items : List SecItem) (m : List Entry),
      (∀ e ∈ m, P e.website) →
      (∀ it ∈ items, it.domain ≠ [] → P (normalizeWebsite it.domain)) →
      ∀ e ∈ mergeSecondary s m items, P e.website := by
  intro items
  induction items with
  | nil =>
    intro m hm _ e he
    exact hm e he
  | cons it items' ih =>
    intro m hm hits e he
    exact ih (secStep s m it)
      (secStep_website_inv hm (hits it (List.mem_cons_self it items')))
      (fun x hx => hits x (List.mem_cons_of_mem it hx)) e he

/-- C3 (counterexample): the Merge Engine skips only raw-falsy domains; a
record whose raw domain is the truthy string `www.` normalizes to the
empty key and an entry keyed by the empty string IS inserted and emitted. -/
theorem C3_counterexample :
    (mergeLists [⟨("www.".data), none, 1⟩] [] [] [] []).map Entry.website =
      [[]] := by decide

/-- C3 (amended): the Merge Engine drops records whose raw domain field
is empty/absent; consequently, whenever every record's non-empty raw
domain normalizes to a non-empty key, no entry keyed by the empty string
exists in the output.  (A non-empty raw domain that normalizes to the
empty key — e.g. `www.` or a whitespace-only string — does create an
empty-keyed entry, contrary to the original claim.) -/
theorem C3_amended (tr : List TrancoItem) (ah cf sw sr : List SecItem)
    (htr : ∀ it ∈ tr, it.domain ≠ [] → normalizeWebsite it.domain ≠ [])
    (hah : ∀ it ∈ ah, it.domain ≠ [] → normalizeWebsite it.domain ≠ [])
    (hcf : ∀ it ∈ cf, it.domain ≠ [] → normalizeWebsite it.domain ≠ [])
    (hsw : ∀ it ∈ sw, it.domain ≠ [] → normalizeWebsite it.domain ≠ [])
    (hsr : ∀ it ∈ sr, it.domain ≠ [] → normalizeWebsite it.domain ≠ []) :
    ∀ e ∈ mergeLists tr ah cf sw sr, e.website ≠ [] := by
  intro e he
  rw [mergeLists, rankEntries] at he
  obtain ⟨x, hx, rfl⟩ := List.mem_map.mp he
  rw [fillUrl_website]
  have hx' : x ∈ mergeMaps tr ah cf sw sr := (sortEntries_perm _).subset hx
  have h4 := @mergeTranco_website_inv (fun w => w ≠ []) tr []
    (fun e he => absurd he (List.not_mem_nil e)) htr
  have h3 := @mergeSecondary_website_inv (fun w => w ≠ []) .ahrefs ah _ h4 hah
  have h2 := @mergeSecondary_website_inv (fun w => w ≠ []) .cloudflare cf _
    h3 hcf
  have h1 := @mergeSecondary_website_inv (fun w => w ≠ []) .similarweb sw _
    h2 hsw
  have h0 := @mergeSecondary_website_inv (fun w => w ≠ []) .semrush sr _
    h1 hsr
  exact h0 x hx'

/-- C3 (witness): the amended theorem applied to a concrete input whose
domains all normalize to non-empty keys. -/
theorem C3_witness :
    ((mergeLists [⟨("a.tw".data), none, 1⟩] [] [⟨("www.b.tw".data), 2⟩]
      [] []).get ⟨0, by decide⟩).website ≠ [] :=
  C3_amended [⟨("a.tw".data), none, 1⟩] [] [⟨("www.b.tw".data), 2⟩] [] []
    (by decide) (by decide) (by decide) (by decide) (by decide) _
    (List.get_mem _ _ _)
